import Mathlib

/-!
Verification of the MedPal document-processing pipeline (the "enhanced
parser" Lambda and its sibling variants).  Text is modelled as `List Char`;
Python floats are modelled as exact rationals `ℚ`; fallible operations are
modelled with `Except`.  Each definition mirrors one Python function from
the source (same name where Lean allows it).
-/

namespace MedPal

/-- Text is a list of characters (Python `str`). -/
abbrev Str := List Char

/-- Whitespace test used throughout (Python `\s` / `str.strip`). -/
def wsB (c : Char) : Bool := c.isWhitespace

/-- Python `str.strip()`: drop leading and trailing whitespace. -/
def strip (l : Str) : Str := List.rdropWhile wsB (List.dropWhile wsB l)

/-- Python `str.lower()` applied character-wise. -/
def lowerL (l : Str) : Str := l.map Char.toLower

/-- Python `str.split(sep)` for a one-character separator.  `"".split(c)`
yields `[""]`, and a trailing separator yields a trailing empty part. -/
def splitOnChar (sep : Char) : Str → List Str
  | [] => [[]]
  | c :: cs =>
    if c = sep then [] :: splitOnChar sep cs
    else
      match splitOnChar sep cs with
      | [] => [[c]]
      | l :: ls => (c :: l) :: ls

/-- Python `sep.join(parts)`. -/
def joinWith (sep : Str) : List Str → Str
  | [] => []
  | [x] => x
  | x :: y :: rest => x ++ sep ++ joinWith sep (y :: rest)

/-- Whether `needle` is an initial segment of `hay`. -/
def startsWithB : Str → Str → Bool
  | [], _ => true
  | _ :: _, [] => false
  | a :: as, b :: bs => if a = b then startsWithB as bs else false

/-- Python `hay.find(needle)`: index of the first occurrence, scanning
left to right.  `i` is the index of the head of the remaining haystack. -/
def findSubAux : Str → Str → ℕ → Option ℕ
  | [], needle, i => if startsWithB needle [] then some i else none
  | h :: hs, needle, i =>
    if startsWithB needle (h :: hs) then some i else findSubAux hs needle (i + 1)

/-- Python `hay.find(needle)` (as an `Option` instead of `-1`). -/
def findSub (hay needle : Str) : Option ℕ := findSubAux hay needle 0

/-- Python `needle in hay` (substring test). -/
def hasSub (hay needle : Str) : Bool := (findSub hay needle).isSome

/-- The non-empty stripped lines of a text: the pattern
`[line.strip() for line in text.split(chr(10)) if line.strip()]`
used by every tier of `extract_text_multi_method`. -/
def usableLines (t : Str) : List Str :=
  ((splitOnChar '\n' t).map strip).filter (fun l => l ≠ [])

/-- One step of collapsing whitespace runs (Python `re.sub(r'\s+', ' ', text)`).
The flag records whether the previous character was part of a whitespace run. -/
def collapseAux : Bool → Str → Str
  | _, [] => []
  | prevWs, c :: cs =>
    if wsB c then
      if prevWs then collapseAux true cs
      else ' ' :: collapseAux true cs
    else c :: collapseAux false cs

/-- Python `re.sub(r'\s+', ' ', text)`: every maximal run of whitespace
becomes a single space. -/
def collapseWs (l : Str) : Str := collapseAux false l

/-- The ligature fix-ups of `clean_pdf_text`
(`text.replace(chr(0xFB01),'fi')` etc.), character-wise. -/
def replLig (c : Char) : Str :=
  if c = 'ﬁ' then ['f', 'i']
  else if c = 'ﬂ' then ['f', 'l']
  else if c = 'ﬀ' then ['f', 'f']
  else [c]

/-- All three ligature replacements of `clean_pdf_text`. -/
def replaceLigs (l : Str) : Str := l.flatMap replLig

/-- Python `re.match(r'^\d+$', line)`: the line is one or more digits. -/
def isPureDigits (l : Str) : Bool := decide (l ≠ []) && l.all Char.isDigit

/-- Number of alphabetic characters (`sum(c.isalpha() for c in line)`). -/
def countAlpha (l : Str) : ℕ := (l.filter Char.isAlpha).length

/-- The line filter of `clean_pdf_text`: keep a stripped line unless it is
a pure number, shorter than 3 characters, or has alphabetic ratio < 0.3. -/
def keepLine (l : Str) : Bool :=
  !isPureDigits l && decide (3 ≤ l.length) && decide (3 * l.length ≤ 10 * countAlpha l)

/-- Source `clean_pdf_text`: collapse whitespace, fix ligatures, then keep
only the stripped lines passing `keepLine`, re-joined with newlines. -/
def clean_pdf_text (t : Str) : Str :=
  if t = [] then []
  else
    joinWith ['\n']
      ((((splitOnChar '\n' (replaceLigs (collapseWs t))).map strip).filter keepLine))

/-- The fixed medical vocabulary of `calculate_text_confidence`. -/
def medical_terms : List Str :=
  ["patient", "doctor", "medical", "diagnosis", "treatment", "medication",
   "test", "result"].map String.toList

/-- Number of vocabulary terms occurring in the lower-cased text. -/
def medCount (t : Str) : ℕ :=
  (medical_terms.filter (fun term => hasSub (lowerL t) (lowerL term))).length

/-- Python `re.split(r'[.!?]+', text)` up to empty parts (which the caller
filters out by a length test anyway): split at every sentence delimiter. -/
def sentenceParts (t : Str) : List Str :=
  t.splitOnP (fun c => c = '.' || c = '!' || c = '?')

/-- Number of sentence parts longer than 10 characters once stripped
(`complete_sentences` in `calculate_text_confidence`). -/
def completeCount (t : Str) : ℕ :=
  ((sentenceParts t).filter (fun s => 10 < (strip s).length)).length

/-- Source `calculate_text_confidence`: base 0.5 plus capped bonuses for
medical terms, structural line count and sentence completeness, capped at
0.95; 0.0 for empty text. -/
def calculate_text_confidence (t : Str) : ℚ :=
  if t = [] then 0
  else
    let score : ℚ := 1/2 + min ((medCount t : ℚ) * (1/20)) (1/5)
    let score : ℚ := score + (if 5 < (usableLines t).length then 1/10 else 0)
    let score : ℚ := score + (if 20 < (usableLines t).length then 1/10 else 0)
    let score : ℚ := score + (if 3 < completeCount t then 1/10 else 0)
    min score (19/20)

/-- Source `calculate_quality_score`: the text argument is unused by the
source, which branches only on confidence and line count. -/
def calculate_quality_score (_text : Str) (confidence : ℚ) (lines : ℤ) : Str :=
  if 4/5 < confidence ∧ 15 < lines then "excellent".toList
  else if 7/10 < confidence ∧ 10 < lines then "good".toList
  else if 3/5 < confidence ∧ 5 < lines then "fair".toList
  else "poor".toList

/-- One `(keywords, doc_type, base_confidence)` tuple of
`classify_medical_document_enhanced`. -/
structure Classification where
  kws : List Str
  label : Str
  base : ℚ

/-- The fixed ordered classification list of
`classify_medical_document_enhanced`. -/
def classifications : List Classification :=
  [⟨["laboratory", "lab result", "glucose", "cholesterol", "blood test",
     "hemoglobin", "white blood cell", "platelet"].map String.toList,
    "lab_result".toList, 9/10⟩,
   ⟨["prescription", "medication", "pharmacy", "rx", "tablets", "mg",
     "dosage", "take with food"].map String.toList,
    "prescription".toList, 9/10⟩,
   ⟨["x-ray", "mri", "ct scan", "ultrasound", "radiology", "imaging",
     "mammogram"].map String.toList,
    "imaging_report".toList, 9/10⟩,
   ⟨["discharge", "hospital", "admission", "summary", "patient care",
     "discharge summary"].map String.toList,
    "discharge_summary".toList, 4/5⟩,
   ⟨["consultation", "clinic note", "follow up", "assessment", "examination",
     "vital signs"].map String.toList,
    "consultation_note".toList, 4/5⟩,
   ⟨["surgery", "operation", "procedure", "surgical", "operative",
     "anesthesia"].map String.toList,
    "surgical_report".toList, 4/5⟩,
   ⟨["medical", "patient", "doctor", "clinic", "health", "diagnosis",
     "treatment"].map String.toList,
    "medical_document".toList, 3/5⟩]

/-- Number of keywords of one tuple found in the lower-cased text
(`sum(1 for keyword in keywords if keyword in text_lower)`). -/
def matchCount (t : Str) (kws : List Str) : ℕ :=
  (kws.filter (fun k => hasSub (lowerL t) k)).length

/-- One iteration of the best-match loop of
`classify_medical_document_enhanced`. -/
def classifyStep (t : Str) (best : Str × ℚ) (cl : Classification) : Str × ℚ :=
  let m := matchCount t cl.kws
  if 0 < m then
    let conf := cl.base * (m : ℚ) / (cl.kws.length : ℚ)
    if best.2 < conf then (cl.label, conf) else best
  else best

/-- Source `classify_medical_document_enhanced`: best-scoring tuple wins,
starting from `('document', 0.0)`; empty text short-circuits to
`'unknown'`. -/
def classify_medical_document_enhanced (t : Str) : Str :=
  if t = [] then "unknown".toList
  else (classifications.foldl (classifyStep t) ("document".toList, 0)).1

/-- One keyword hit of `extract_medical_keywords`. -/
structure EntityMatch where
  category : Str
  keyword : Str
  context : Str
deriving DecidableEq, Repr

/-- The fixed category taxonomy of `extract_medical_keywords`
(a Python dict, iterated in insertion order). -/
def medical_keywords : List (Str × List Str) :=
  [("medications".toList,
    ["aspirin", "ibuprofen", "acetaminophen", "metformin", "lisinopril",
     "atorvastatin"].map String.toList),
   ("conditions".toList,
    ["diabetes", "hypertension", "asthma", "copd", "heart disease",
     "obesity"].map String.toList),
   ("tests".toList,
    ["blood pressure", "cholesterol", "glucose", "hemoglobin", "x-ray",
     "mri"].map String.toList),
   ("measurements".toList,
    ["mg", "ml", "units", "mmol", "mg/dl", "blood pressure"].map String.toList),
   ("symptoms".toList,
    ["pain", "fever", "cough", "shortness of breath", "fatigue",
     "nausea"].map String.toList)]

/-- Source `extract_keyword_context`: slice `text[start:end]` around the
first occurrence (found in the lower-cased text) and strip it.  Natural
subtraction makes `pos - 30` exactly Python's `max(0, keyword_pos - 30)`. -/
def extract_keyword_context (t kw : Str) : Str :=
  match findSub (lowerL t) (lowerL kw) with
  | none => []
  | some pos =>
    let start := pos - 30
    let stop := min t.length (pos + kw.length + 30)
    strip ((t.drop start).take (stop - start))

/-- Source `extract_medical_keywords`: one `EntityMatch` per
`(category, keyword)` pair whose keyword occurs in the lower-cased text. -/
def extract_medical_keywords (t : Str) : List EntityMatch :=
  if t = [] then []
  else
    medical_keywords.flatMap (fun ck =>
      (ck.2.filter (fun kw => hasSub (lowerL t) kw)).map
        (fun kw => ⟨ck.1, kw, extract_keyword_context t kw⟩))

/-- One pdfplumber page: its extracted text (empty for a `None` result)
and its tables, each a list of rows of cell strings. -/
structure PdfPage where
  text : Str
  tables : List (List (List Str))

/-- Table-row flattening of the pdfplumber tier:
`' | '.join([cell for cell in row if cell])`. -/
def tableRowText (row : List Str) : Str :=
  joinWith " | ".toList (row.filter (fun c => c ≠ []))

/-- The `text_parts` list assembled by the pdfplumber tier of
`extract_text_multi_method`: per page, the page text if non-empty, then
every table row whose flattened form is non-blank. -/
def tier1_parts (pages : List PdfPage) : List Str :=
  pages.flatMap (fun p =>
    (if p.text ≠ [] then [p.text] else []) ++
    p.tables.flatMap (fun table =>
      table.flatMap (fun row =>
        let rt := tableRowText row
        if strip rt ≠ [] then [rt] else [])))

/-- The `text_parts` list assembled by the PyPDF2 tier: non-empty page
texts passed through `clean_pdf_text`, kept when still non-empty. -/
def tier2_parts (pages : List Str) : List Str :=
  pages.flatMap (fun p =>
    if p ≠ [] then
      let c := clean_pdf_text p
      if c ≠ [] then [c] else []
    else [])

/-- The selected result of `extract_text_multi_method`
(`(text, confidence, pages_processed, lines_extracted)`). -/
structure ExtractionOutcome where
  text : Str
  confidence : ℚ
  pagesProcessed : ℕ
  linesExtracted : ℕ
deriving DecidableEq, Repr

/-- Abstract behaviour of the three extraction backends on one input:
each either raises or yields its raw data (pdfplumber pages, PyPDF2 page
texts, decoded raw bytes). -/
structure ChainInput where
  tier1 : Except Unit (List PdfPage)
  tier2 : Except Unit (List Str)
  tier3 : Except Unit Str

/-- The character class kept by the tier-3 artifact scrub
`re.sub(r'[^\w\s\.,;:!?()-]', ' ', line)`. -/
def basicKeepChar (c : Char) : Bool :=
  c.isAlphanum || c = '_' || c.isWhitespace ||
    c ∈ ['.', ',', ';', ':', '!', '?', '(', ')', '-']

/-- The `text_lines` list of the raw-fallback tier: stripped lines longer
than 5 characters containing a letter, scrubbed, re-stripped and kept when
still longer than 5 characters. -/
def basicLines (content : Str) : List Str :=
  (splitOnChar '\n' content).flatMap (fun line =>
    let l := strip line
    if 5 < l.length ∧ l.any Char.isAlpha then
      let cl := strip (l.map (fun c => if basicKeepChar c then c else ' '))
      if 5 < cl.length then [cl] else []
    else [])

/-- The raw-fallback tier of `extract_text_multi_method`: cap the joined
text at 30 lines but report the uncapped count; fixed fallback outcomes
when nothing usable is found or the read raises. -/
def tier3Outcome : Except Unit Str → ExtractionOutcome
  | .error _ => ⟨"PDF processing failed".toList, 0, 1, 0⟩
  | .ok content =>
    let text_lines := basicLines content
    if text_lines ≠ [] then
      ⟨joinWith ['\n'] (text_lines.take 30), 3/5, 1, text_lines.length⟩
    else
      ⟨"Text extraction completed - limited content available".toList, 1/2, 1, 1⟩

/-- The accepted-tier outcome for tiers 1 and 2: joined parts, computed
confidence and the non-empty stripped line count. -/
def tierOutcome (parts : List Str) (pageCount : ℕ) : ExtractionOutcome :=
  let full := joinWith ['\n'] parts
  ⟨full, calculate_text_confidence full, pageCount, (usableLines full).length⟩

/-- Source `extract_text_multi_method`: pdfplumber, then PyPDF2, then the
raw fallback; a tier is accepted exactly when its `text_parts` list is
non-empty; exceptions fall through to the next tier.  The second component
records the tiers invoked, in order. -/
def extract_text_multi_method (inp : ChainInput) : ExtractionOutcome × List ℕ :=
  let viaTier2 : ExtractionOutcome × List ℕ :=
    match inp.tier2 with
    | .error _ => (tier3Outcome inp.tier3, [2, 3])
    | .ok pages =>
      let parts := tier2_parts pages
      if parts ≠ [] then (tierOutcome parts pages.length, [2])
      else (tier3Outcome inp.tier3, [2, 3])
  match inp.tier1 with
  | .error _ => (viaTier2.1, 1 :: viaTier2.2)
  | .ok pages =>
    let parts := tier1_parts pages
    if parts ≠ [] then (tierOutcome parts pages.length, [1])
    else (viaTier2.1, 1 :: viaTier2.2)

/-- Whether `suf` is a final segment of `l` (Python `str.endswith`). -/
def endsWithB (l suf : Str) : Bool := startsWithB suf.reverse l.reverse

/-- One record of an S3 trigger event. -/
structure S3Record where
  bucket : Str
  key : Str

/-- The key filter of `handle_s3_event`: prefixed by `medpal-uploads/` and
a `.pdf` suffix on the lower-cased key. -/
def matchesFilter (key : Str) : Bool :=
  startsWithB "medpal-uploads/".toList key && endsWithB (lowerL key) ".pdf".toList

/-- The record loop of the enhanced-parser `handle_s3_event`, with the
per-document processing abstracted as `proc`.  The loop body has no
`try`/`except`, so a `proc` exception propagates and aborts the loop —
exactly as `process_pdf_enhanced` re-raises after logging its error
record. -/
def handleAux {α : Type} (proc : S3Record → Except Str α) :
    List S3Record → List α → Except Str (ℕ × List α)
  | [], results => .ok (results.length, results)
  | r :: rs, results =>
    if matchesFilter r.key then
      match proc r with
      | .error e => .error e
      | .ok v => handleAux proc rs (results ++ [v])
    else handleAux proc rs results

/-- Source `handle_s3_event` (enhanced-parser variant): process each
matching record in order, collecting per-document results; returns the
`processed_files` count and the result list, or the first uncaught
per-document exception. -/
def handle_s3_event {α : Type} (records : List S3Record)
    (proc : S3Record → Except Str α) : Except Str (ℕ × List α) :=
  handleAux proc records []

/-- Which operations of one `process_pdf_enhanced` run succeed: the S3
`head_object` call, the S3 download into the temporary file, and the body
of the inner `try` (extraction through DynamoDB write). -/
structure RunEnv where
  headOk : Bool
  downloadOk : Bool
  bodyOk : Bool

/-- Resource model of `process_pdf_enhanced`: first component is whether
the run returns normally (`.ok`) or re-raises (`.error`), second is
whether the temporary file still exists when control returns.  The
`NamedTemporaryFile(delete=False)` is created before the download; the
`try`/`finally` protecting `os.unlink` begins only after the download
completed. -/
def process_pdf_enhanced_fs (env : RunEnv) : Except Unit Unit × Bool :=
  if !env.headOk then (.error (), false)
  else if !env.downloadOk then (.error (), true)
  else if !env.bodyOk then (.error (), false)
  else (.ok (), false)

/-- Tier 1 contributes nothing: it raised, or its `text_parts` list is
empty. -/
def tier1Failed (inp : ChainInput) : Prop :=
  inp.tier1 = .error () ∨ ∃ pages, inp.tier1 = .ok pages ∧ tier1_parts pages = []

/-- Tier 2 contributes nothing: it raised, or its `text_parts` list is
empty. -/
def tier2Failed (inp : ChainInput) : Prop :=
  inp.tier2 = .error () ∨ ∃ pages, inp.tier2 = .ok pages ∧ tier2_parts pages = []

/-- The raw (unstripped) context window described by the spec: up to 30
characters each side of the keyword's first occurrence in the lower-cased
text. -/
def rawWindow (t kw : Str) : Str :=
  match findSub (lowerL t) (lowerL kw) with
  | none => []
  | some pos => (t.drop (pos - 30)).take (min t.length (pos + kw.length + 30) - (pos - 30))

/-- The score the spec assigns one classification tuple:
`baseWeight * (matchedKeywords / |keywordSet|)`. -/
def scoreOf (t : Str) (cl : Classification) : ℚ :=
  cl.base * (matchCount t cl.kws : ℚ) / (cl.kws.length : ℚ)

/-- Every tuple's label paired with its score, in list order. -/
def scoredLabels (t : Str) : List (Str × ℚ) :=
  classifications.map (fun cl => (cl.label, scoreOf t cl))

/-- The highest score over all tuples (0 if nothing scores). -/
def maxScore (t : Str) : ℚ := ((scoredLabels t).map Prod.snd).foldr max 0

/-- The classifier described by the spec sentence: the label of the
highest-scoring tuple, ties broken by earliest position (`find?` returns
the first tuple attaining the maximum), `'document'` when nothing scores,
and — per the correction — `'unknown'` for empty text. -/
def specClassify (t : Str) : Str :=
  if t = [] then "unknown".toList
  else if maxScore t = 0 then "document".toList
  else
    match (scoredLabels t).find? (fun p => decide (maxScore t ≤ p.2)) with
    | some p => p.1
    | none => "document".toList

/-- The best-so-far fold underlying `classify_medical_document_enhanced`,
on label/score pairs: replace the accumulator exactly on strict
improvement. -/
def foldBest (acc : Str × ℚ) (ps : List (Str × ℚ)) : Str × ℚ :=
  ps.foldl (fun b p => if b.2 < p.2 then p else b) acc

/-- Every whitespace character of the text is a plain space — the state
`re.sub(r'\s+', ' ', ...)` leaves behind. -/
def WsOk (l : Str) : Prop := ∀ c ∈ l, wsB c = true → c = ' '

/-- At most one of two adjacent characters is whitespace. -/
def NicePair (a b : Char) : Prop := wsB a = false ∨ wsB b = false

/-- No two adjacent whitespace characters anywhere. -/
def NoWsRun (l : Str) : Prop := l.Chain' NicePair

/-- The first character, if any, is not whitespace. -/
def HeadNotWs (l : Str) : Prop := ∀ c cs, l = c :: cs → wsB c = false

/-! Theorems. -/

/-- For non-empty text the confidence score sits between the base 0.5 and
the cap 0.95. -/
theorem conf_between (t : Str) (h : t ≠ []) :
    1/2 ≤ calculate_text_confidence t ∧ calculate_text_confidence t ≤ 19/20 := by
  unfold calculate_text_confidence
  rw [if_neg h]
  have hA : (0:ℚ) ≤ min ((medCount t : ℚ) * (1/20)) (1/5) :=
    le_min (by positivity) (by norm_num)
  have hB : (0:ℚ) ≤ (if 5 < (usableLines t).length then (1/10 : ℚ) else 0) := by
    split <;> norm_num
  have hC : (0:ℚ) ≤ (if 20 < (usableLines t).length then (1/10 : ℚ) else 0) := by
    split <;> norm_num
  have hD : (0:ℚ) ≤ (if 3 < completeCount t then (1/10 : ℚ) else 0) := by
    split <;> norm_num
  constructor
  · exact le_min (by linarith) (by norm_num)
  · exact min_le_right _ _

/-- C3: for every input text the confidence score lies in [0, 0.99], is
never negative, and is 0 exactly for the empty text. -/
theorem confidence_score_bounds (t : Str) :
    0 ≤ calculate_text_confidence t ∧ calculate_text_confidence t ≤ 99/100 ∧
      (calculate_text_confidence t = 0 ↔ t = []) := by
  rcases eq_or_ne t [] with h | h
  · subst h
    refine ⟨le_refl _, by norm_num [calculate_text_confidence], by
      simp [calculate_text_confidence]⟩
  · obtain ⟨h1, h2⟩ := conf_between t h
    refine ⟨by linarith, by linarith, ?_⟩
    constructor
    · intro h0
      exfalso
      rw [h0] at h1
      norm_num at h1
    · intro h0
      exact absurd h0 h

/-- C10: the quality score is total over the four labels and follows the
nested threshold cascade exactly. -/
theorem quality_score_cascade (text : Str) (confidence : ℚ) (lines : ℤ) :
    (calculate_quality_score text confidence lines = "excellent".toList ↔
      (4/5 < confidence ∧ 15 < lines)) ∧
    (¬(4/5 < confidence ∧ 15 < lines) →
      (calculate_quality_score text confidence lines = "good".toList ↔
        (7/10 < confidence ∧ 10 < lines))) ∧
    (¬(4/5 < confidence ∧ 15 < lines) → ¬(7/10 < confidence ∧ 10 < lines) →
      (calculate_quality_score text confidence lines = "fair".toList ↔
        (3/5 < confidence ∧ 5 < lines))) ∧
    (¬(4/5 < confidence ∧ 15 < lines) → ¬(7/10 < confidence ∧ 10 < lines) →
      ¬(3/5 < confidence ∧ 5 < lines) →
      calculate_quality_score text confidence lines = "poor".toList) ∧
    calculate_quality_score text confidence lines ∈
      ["excellent".toList, "good".toList, "fair".toList, "poor".toList] := by
  unfold calculate_quality_score
  by_cases h1 : 4/5 < confidence ∧ 15 < lines <;>
    by_cases h2 : 7/10 < confidence ∧ 10 < lines <;>
      by_cases h3 : 3/5 < confidence ∧ 5 < lines <;>
        simp [h1, h2, h3]

/-- Witness for C10 at a concrete input. -/
theorem quality_score_cascade_witness :
    calculate_quality_score [] (9/10) 20 = "excellent".toList :=
  (quality_score_cascade [] (9/10) 20).1.mpr (by norm_num)

/-- C1 counterexample: a pdfplumber tier yielding one blank page text
(`' '`) is accepted — the chain stops at tier 1 with zero usable lines
instead of proceeding to tier 2. -/
theorem chain_accepts_zero_line_tier1 :
    (extract_text_multi_method ⟨.ok [⟨[' '], []⟩], .ok [], .ok []⟩).2 = [1] ∧
    (extract_text_multi_method ⟨.ok [⟨[' '], []⟩], .ok [], .ok []⟩).1.linesExtracted = 0 := by
  constructor
  · rfl
  · rfl

/-- C2 counterexample: with all three tiers yielding nothing, the chain
returns the `'Text extraction completed - limited content available'`
outcome with `linesExtracted = 1`, not the claimed
`'no extractable text'` outcome with `linesExtracted = 0`. -/
theorem chain_placeholder_text_and_count :
    extract_text_multi_method ⟨.ok [], .ok [], .ok []⟩ =
      (⟨"Text extraction completed - limited content available".toList, 1/2, 1, 1⟩,
        [1, 2, 3]) ∧
    "Text extraction completed - limited content available".toList ≠
      "no extractable text".toList := by
  constructor
  · rfl
  · decide

/-- C5 counterexample: the tier-3 error outcome reports 0 lines while its
text `'PDF processing failed'` has one non-empty normalized line. -/
theorem chain_tier3_breaks_line_invariant :
    (extract_text_multi_method ⟨.error (), .error (), .error ()⟩).1.linesExtracted = 0 ∧
    (usableLines
      (extract_text_multi_method ⟨.error (), .error (), .error ()⟩).1.text).length = 1 := by
  constructor
  · rfl
  · rfl

/-- C6 counterexample: the classifier returns `'unknown'` — not the
fallback `'document'` — on empty text, although no tuple matches any
keyword there. -/
theorem classify_empty_not_document :
    classify_medical_document_enhanced [] = "unknown".toList ∧
    "unknown".toList ≠ "document".toList ∧
    ∀ cl ∈ classifications, matchCount [] cl.kws = 0 := by
  refine ⟨rfl, by decide, by decide⟩

/-- C9 (code bug): when the S3 download raises after
`NamedTemporaryFile(delete=False)` created the file, the run re-raises
with the temporary file still on disk; the later failure paths and the
success path do delete it. -/
theorem temp_file_leaks_on_download_failure :
    process_pdf_enhanced_fs ⟨true, false, true⟩ = (.error (), true) ∧
    process_pdf_enhanced_fs ⟨true, true, false⟩ = (.error (), false) ∧
    process_pdf_enhanced_fs ⟨true, true, true⟩ = (.ok (), false) := by
  refine ⟨rfl, rfl, rfl⟩

/-- C8 (code bug): in a two-record batch where processing of the first
matching document raises, the enhanced-parser event loop propagates the
exception and never reaches the second document, whereas the same second
document alone is processed fine. -/
theorem handler_aborts_batch_on_failure :
    handle_s3_event
      [⟨"b".toList, "medpal-uploads/a.pdf".toList⟩,
       ⟨"b".toList, "medpal-uploads/b.pdf".toList⟩]
      (fun r => if r.key = "medpal-uploads/a.pdf".toList
        then .error "boom".toList else .ok (1:ℕ)) =
      .error "boom".toList ∧
    handle_s3_event [⟨"b".toList, "medpal-uploads/b.pdf".toList⟩]
      (fun r => if r.key = "medpal-uploads/a.pdf".toList
        then .error "boom".toList else .ok (1:ℕ)) =
      .ok (1, [1]) := by
  constructor
  · rfl
  · rfl

/-- When tier 1 yields a non-empty parts list the chain accepts it and
invokes nothing else. -/
theorem chain_tier1_accepts (t2 : Except Unit (List Str)) (t3 : Except Unit Str)
    (pages : List PdfPage) (hp : tier1_parts pages ≠ []) :
    extract_text_multi_method ⟨.ok pages, t2, t3⟩ =
      (tierOutcome (tier1_parts pages) pages.length, [1]) := by
  simp [extract_text_multi_method, hp]

/-- When tier 1 fails the chain behaves as the tier-2/3 sub-chain with a
leading `1` in the invocation trace. -/
theorem chain_tier1_falls_through (inp : ChainInput) (h : tier1Failed inp) :
    extract_text_multi_method inp =
      ((extract_text_multi_method ⟨.error (), inp.tier2, inp.tier3⟩).1,
        1 :: (extract_text_multi_method ⟨.error (), inp.tier2, inp.tier3⟩).2.tail) := by
  obtain ⟨t1, t2, t3⟩ := inp
  rcases h with h | ⟨pages, h, hp⟩ <;> simp only at h <;> subst h
  · rfl
  · simp [extract_text_multi_method, hp]

/-- When tier 1 fails and tier 2 yields a non-empty parts list, the chain
accepts tier 2. -/
theorem chain_tier2_accepts (inp : ChainInput) (h1 : tier1Failed inp)
    (pages : List Str) (h2 : inp.tier2 = .ok pages) (hp : tier2_parts pages ≠ []) :
    extract_text_multi_method inp =
      (tierOutcome (tier2_parts pages) pages.length, [1, 2]) := by
  obtain ⟨t1, t2, t3⟩ := inp
  simp only at h2
  subst h2
  rcases h1 with h | ⟨pages1, h, hp1⟩ <;> simp only at h <;> subst h
  · simp [extract_text_multi_method, hp]
  · simp [extract_text_multi_method, hp, hp1]

/-- When tiers 1 and 2 both fail, the chain falls to the raw fallback. -/
theorem chain_tier3_reached (inp : ChainInput) (h1 : tier1Failed inp)
    (h2 : tier2Failed inp) :
    extract_text_multi_method inp = (tier3Outcome inp.tier3, [1, 2, 3]) := by
  obtain ⟨t1, t2, t3⟩ := inp
  rcases h1 with h | ⟨pages1, h, hp1⟩ <;> simp only at h <;> subst h <;>
    rcases h2 with h' | ⟨pages2, h', hp2⟩ <;> simp only at h' <;> subst h'
  · rfl
  · simp [extract_text_multi_method, hp2]
  · simp [extract_text_multi_method, hp1]
  · simp [extract_text_multi_method, hp1, hp2]

/-- C1 (amended): the chain tries pdfplumber, PyPDF2, then the raw
fallback in order; exceptions and empty `text_parts` lists fall through,
and a tier with a non-empty `text_parts` list is accepted without
invoking any lower tier — even when its parts hold zero usable lines. -/
theorem chain_first_parts_success (inp : ChainInput) :
    (∀ pages, inp.tier1 = .ok pages → tier1_parts pages ≠ [] →
      extract_text_multi_method inp = (tierOutcome (tier1_parts pages) pages.length, [1])) ∧
    (tier1Failed inp → ∀ pages, inp.tier2 = .ok pages → tier2_parts pages ≠ [] →
      extract_text_multi_method inp = (tierOutcome (tier2_parts pages) pages.length, [1, 2])) ∧
    (tier1Failed inp → tier2Failed inp →
      extract_text_multi_method inp = (tier3Outcome inp.tier3, [1, 2, 3])) := by
  refine ⟨?_, ?_, ?_⟩
  · intro pages h hp
    obtain ⟨t1, t2, t3⟩ := inp
    simp only at h
    subst h
    exact chain_tier1_accepts t2 t3 pages hp
  · intro h1 pages h2 hp
    exact chain_tier2_accepts inp h1 pages h2 hp
  · intro h1 h2
    exact chain_tier3_reached inp h1 h2

/-- Witness for C1 at a concrete input accepted by tier 1. -/
theorem chain_first_parts_success_witness :
    extract_text_multi_method ⟨.ok [⟨"hello".toList, []⟩], .error (), .error ()⟩ =
      (tierOutcome (tier1_parts [⟨"hello".toList, []⟩]) 1, [1]) :=
  (chain_first_parts_success ⟨.ok [⟨"hello".toList, []⟩], .error (), .error ()⟩).1
    [⟨"hello".toList, []⟩] rfl (by decide)

/-- C2 (amended): when every tier contributes zero usable lines and the
raw read itself succeeds, the chain returns the fixed
`'Text extraction completed - limited content available'` outcome with
`pagesProcessed = 1` and `linesExtracted = 1`, raising nothing. -/
theorem chain_zero_usable_placeholder (inp : ChainInput) (h1 : tier1Failed inp)
    (h2 : tier2Failed inp) (content : Str) (h3 : inp.tier3 = .ok content)
    (hb : basicLines content = []) :
    extract_text_multi_method inp =
      (⟨"Text extraction completed - limited content available".toList, 1/2, 1, 1⟩,
        [1, 2, 3]) := by
  rw [chain_tier3_reached inp h1 h2, h3]
  simp [tier3Outcome, hb]

/-- Witness for C2 at the all-empty input. -/
theorem chain_zero_usable_placeholder_witness :
    extract_text_multi_method ⟨.ok [], .ok [], .ok []⟩ =
      (⟨"Text extraction completed - limited content available".toList, 1/2, 1, 1⟩,
        [1, 2, 3]) :=
  chain_zero_usable_placeholder ⟨.ok [], .ok [], .ok []⟩
    (Or.inr ⟨[], rfl, rfl⟩) (Or.inr ⟨[], rfl, rfl⟩) [] rfl rfl

/-- C5 (amended): every outcome accepted from tier 1 or tier 2 satisfies
`linesExtracted = count of non-empty normalized lines of text`; tier-3
outcomes are exempt. -/
theorem chain_lines_invariant_tier12 (inp : ChainInput)
    (h : (extract_text_multi_method inp).2 = [1] ∨
      (extract_text_multi_method inp).2 = [1, 2]) :
    (extract_text_multi_method inp).1.linesExtracted =
      (usableLines (extract_text_multi_method inp).1.text).length := by
  obtain ⟨t1, t2, t3⟩ := inp
  cases t1 with
  | ok pages =>
    by_cases hp : tier1_parts pages = []
    · have h1 : tier1Failed ⟨.ok pages, t2, t3⟩ := Or.inr ⟨pages, rfl, hp⟩
      cases t2 with
      | ok pages2 =>
        by_cases hq : tier2_parts pages2 = []
        · have h2 : tier2Failed ⟨.ok pages, .ok pages2, t3⟩ := Or.inr ⟨pages2, rfl, hq⟩
          rcases h with h | h <;> rw [chain_tier3_reached _ h1 h2] at h <;> simp at h
        · rw [chain_tier2_accepts _ h1 pages2 rfl hq]
          simp [tierOutcome]
      | error u =>
        cases u
        have h2 : tier2Failed ⟨.ok pages, .error (), t3⟩ := Or.inl rfl
        rcases h with h | h <;> rw [chain_tier3_reached _ h1 h2] at h <;> simp at h
    · rw [chain_tier1_accepts t2 t3 pages hp]
      simp [tierOutcome]
  | error u =>
    cases u
    have h1 : tier1Failed ⟨.error (), t2, t3⟩ := Or.inl rfl
    cases t2 with
    | ok pages2 =>
      by_cases hq : tier2_parts pages2 = []
      · have h2 : tier2Failed ⟨.error (), .ok pages2, t3⟩ := Or.inr ⟨pages2, rfl, hq⟩
        rcases h with h | h <;> rw [chain_tier3_reached _ h1 h2] at h <;> simp at h
      · rw [chain_tier2_accepts _ h1 pages2 rfl hq]
        simp [tierOutcome]
    | error u2 =>
      cases u2
      have h2 : tier2Failed ⟨.error (), .error (), t3⟩ := Or.inl rfl
      rcases h with h | h <;> rw [chain_tier3_reached _ h1 h2] at h <;> simp at h

/-- Folding `max` over a list commutes with an extra `max` on the seed. -/
theorem foldr_max_comm (l : List ℚ) (a b : ℚ) :
    l.foldr max (max a b) = max a (l.foldr max b) := by
  induction l with
  | nil => rfl
  | cons c l ih =>
    simp only [List.foldr_cons, ih]
    rw [max_left_comm]

/-- The seed bounds a `max`-fold from below. -/
theorem le_foldr_max_seed (l : List ℚ) (a : ℚ) : a ≤ l.foldr max a := by
  induction l with
  | nil => exact le_refl a
  | cons c l ih => exact le_trans ih (le_max_right _ _)

/-- Every member bounds a `max`-fold from below. -/
theorem mem_le_foldr_max {x : ℚ} {l : List ℚ} (hx : x ∈ l) (a : ℚ) :
    x ≤ l.foldr max a := by
  induction l with
  | nil => cases hx
  | cons c l ih =>
    rcases List.mem_cons.mp hx with h | h
    · exact h ▸ le_max_left _ _
    · exact le_trans (ih h) (le_max_right _ _)

/-- A `max`-fold is its seed or one of the members. -/
theorem foldr_max_mem_or_seed (l : List ℚ) (a : ℚ) :
    l.foldr max a = a ∨ l.foldr max a ∈ l := by
  induction l with
  | nil => exact Or.inl rfl
  | cons c l ih =>
    rcases max_choice c (l.foldr max a) with h | h
    · exact Or.inr (by rw [List.foldr_cons, h]; exact List.mem_cons_self c l)
    · rcases ih with h' | h'
      · exact Or.inl (by rw [List.foldr_cons, h, h'])
      · exact Or.inr (by rw [List.foldr_cons, h]; exact List.mem_cons_of_mem c h')

/-- A strict-improvement fold never moves when nothing beats the
accumulator. -/
theorem foldBest_const (acc : Str × ℚ) (ps : List (Str × ℚ))
    (h : ∀ p ∈ ps, p.2 ≤ acc.2) : foldBest acc ps = acc := by
  induction ps with
  | nil => rfl
  | cons p ps ih =>
    have hnp : ¬acc.2 < p.2 := not_lt.mpr (h p (List.mem_cons_self p ps))
    simp only [foldBest, List.foldl_cons, if_neg hnp]
    exact ih (fun q hq => h q (List.mem_cons_of_mem p hq))

/-- A strict-improvement fold ends at the first pair attaining the
maximum, when the maximum beats the accumulator. -/
theorem foldBest_finds : ∀ (ps : List (Str × ℚ)) (acc : Str × ℚ) (M : ℚ),
    (ps.map Prod.snd).foldr max acc.2 = M → acc.2 < M →
    ∃ p, ps.find? (fun q => decide (M ≤ q.2)) = some p ∧ foldBest acc ps = p := by
  intro ps
  induction ps with
  | nil =>
    intro acc M hM hlt
    rw [List.map_nil, List.foldr_nil] at hM
    exact absurd (hM ▸ hlt) (lt_irrefl M)
  | cons p ps ih =>
    intro acc M hM hlt
    rw [List.map_cons, List.foldr_cons] at hM
    by_cases hp : M ≤ p.2
    · refine ⟨p, ?_, ?_⟩
      · simp [List.find?_cons, decide_eq_true hp]
      · have hstep : acc.2 < p.2 := lt_of_lt_of_le hlt hp
        simp only [foldBest, List.foldl_cons, if_pos hstep]
        have hb : ∀ q ∈ ps, q.2 ≤ p.2 := by
          intro q hq
          have h1 : q.2 ≤ (ps.map Prod.snd).foldr max acc.2 :=
            mem_le_foldr_max (List.mem_map_of_mem Prod.snd hq) acc.2
          have h2 : (ps.map Prod.snd).foldr max acc.2 ≤ M :=
            hM ▸ le_max_right p.2 _
          exact le_trans (le_trans h1 h2) hp
        exact foldBest_const p ps hb
    · push_neg at hp
      have hF : (ps.map Prod.snd).foldr max acc.2 = M := by
        rcases max_choice p.2 ((ps.map Prod.snd).foldr max acc.2) with h | h
        · rw [h] at hM
          exact absurd hM (ne_of_lt hp)
        · rw [h] at hM
          exact hM
      have hdec : (decide (M ≤ p.2)) = false := decide_eq_false (not_le_of_lt hp)
      have hfind : (p :: ps).find? (fun q => decide (M ≤ q.2)) =
          ps.find? (fun q => decide (M ≤ q.2)) := by
        simp [List.find?_cons, hdec]
      by_cases hacc : acc.2 < p.2
      · have hM2 : (ps.map Prod.snd).foldr max p.2 = M := by
        -- the seed grows from acc.2 to p.2 but stays below the attained max
          have h1 : (ps.map Prod.snd).foldr max (max p.2 acc.2) =
              max p.2 ((ps.map Prod.snd).foldr max acc.2) := foldr_max_comm _ p.2 acc.2
          rw [hF, max_eq_left (le_of_lt hacc), max_eq_right (le_of_lt hp)] at h1
          exact h1
        obtain ⟨q, hq1, hq2⟩ := ih p M hM2 hp
        refine ⟨q, hfind ▸ hq1, ?_⟩
        simp only [foldBest, List.foldl_cons, if_pos hacc]
        exact hq2
      · obtain ⟨q, hq1, hq2⟩ := ih acc M hF hlt
        refine ⟨q, hfind ▸ hq1, ?_⟩
        simp only [foldBest, List.foldl_cons, if_neg hacc]
        exact hq2

/-- The loop of `classify_medical_document_enhanced` is the
strict-improvement fold over the label/score pairs, as long as the
accumulator score stays non-negative (the `matches > 0` guard and the
score comparison agree because a zero-match tuple scores 0). -/
theorem classify_foldl_eq (t : Str) : ∀ (cls : List Classification) (best : Str × ℚ),
    0 ≤ best.2 → (∀ cl ∈ cls, 0 ≤ cl.base) →
    cls.foldl (classifyStep t) best =
      foldBest best (cls.map (fun cl => (cl.label, scoreOf t cl))) := by
  intro cls
  induction cls with
  | nil => intro best _ _; rfl
  | cons cl cls ih =>
    intro best hb hpos
    have hscore : 0 ≤ scoreOf t cl :=
      div_nonneg (mul_nonneg (hpos cl (List.mem_cons_self cl cls)) (Nat.cast_nonneg _))
        (Nat.cast_nonneg _)
    have hstep : classifyStep t best cl =
        if best.2 < scoreOf t cl then (cl.label, scoreOf t cl) else best := by
      unfold classifyStep scoreOf
      by_cases hm : 0 < matchCount t cl.kws
      · simp only [if_pos hm]
      · have hm0 : matchCount t cl.kws = 0 := Nat.eq_zero_of_not_pos hm
        rw [if_neg hm, hm0]
        have : cl.base * ((0 : ℕ) : ℚ) / (cl.kws.length : ℚ) = 0 := by
          simp
        rw [this, if_neg (not_lt.mpr hb)]
    rw [List.foldl_cons, hstep, List.map_cons]
    have hB : 0 ≤ (if best.2 < scoreOf t cl then (cl.label, scoreOf t cl) else best).2 := by
      split
      · exact hscore
      · exact hb
    rw [ih _ hB (fun c hc => hpos c (List.mem_cons_of_mem cl hc))]
    rfl

/-- Facts about the concrete classification table: positive weights,
non-empty keyword sets, and no tuple labelled `'document'`. -/
theorem classifications_facts :
    ∀ cl ∈ classifications,
      0 < cl.base ∧ cl.kws.length ≠ 0 ∧ cl.label ≠ "document".toList := by
  intro cl hcl
  simp only [classifications, List.mem_cons, List.not_mem_nil, or_false] at hcl
  rcases hcl with rfl | rfl | rfl | rfl | rfl | rfl | rfl <;>
    exact ⟨by norm_num, by decide, by decide⟩

/-- C6 (amended): the classifier equals the spec-side argmax classifier
(highest `base * matched/|set|` score, earliest tuple on ties, `document`
fallback) on all texts, and — for non-empty text — returns `'document'`
exactly when no tuple matches any keyword. -/
theorem classify_matches_spec (t : Str) :
    classify_medical_document_enhanced t = specClassify t ∧
    (t ≠ [] → (classify_medical_document_enhanced t = "document".toList ↔
      ∀ cl ∈ classifications, matchCount t cl.kws = 0)) := by
  rcases eq_or_ne t [] with ht | ht
  · subst ht
    exact ⟨rfl, fun h => absurd rfl h⟩
  · have hfold : classify_medical_document_enhanced t =
        (foldBest ("document".toList, 0) (scoredLabels t)).1 := by
      unfold classify_medical_document_enhanced
      rw [if_neg ht,
        classify_foldl_eq t classifications ("document".toList, 0) (le_refl 0)
          (fun cl hcl => (classifications_facts cl hcl).1.le)]
      rfl
    by_cases hM : maxScore t = 0
    · have hall : ∀ p ∈ scoredLabels t, p.2 ≤ 0 := by
        intro p hp
        have := mem_le_foldr_max (List.mem_map_of_mem Prod.snd hp) (0 : ℚ)
        rw [show ((scoredLabels t).map Prod.snd).foldr max 0 = maxScore t from rfl, hM] at this
        exact this
      have hfb : foldBest ("document".toList, 0) (scoredLabels t) =
          ("document".toList, 0) := foldBest_const _ _ hall
      constructor
      · rw [hfold, hfb]
        unfold specClassify
        rw [if_neg ht, if_pos hM]
      · intro _
        constructor
        · intro _ cl hcl
          by_contra hne
          have hmpos : 0 < matchCount t cl.kws := Nat.pos_of_ne_zero hne
          have hlen : 0 < (cl.kws.length : ℚ) := by
            have := (classifications_facts cl hcl).2.1
            exact_mod_cast Nat.pos_of_ne_zero this
          have hspos : 0 < scoreOf t cl :=
            div_pos (mul_pos (classifications_facts cl hcl).1 (by exact_mod_cast hmpos)) hlen
          have hmem : (cl.label, scoreOf t cl) ∈ scoredLabels t :=
            List.mem_map_of_mem _ hcl
          have := hall _ hmem
          simp only at this
          linarith
        · intro _
          rw [hfold, hfb]
    · have hM0 : 0 ≤ maxScore t := le_foldr_max_seed _ 0
      have hMpos : 0 < maxScore t := lt_of_le_of_ne hM0 (Ne.symm hM)
      obtain ⟨p, hp1, hp2⟩ :=
        foldBest_finds (scoredLabels t) ("document".toList, 0) (maxScore t) rfl hMpos
      have hpmem : p ∈ scoredLabels t := List.mem_of_find?_eq_some hp1
      obtain ⟨cl, hcl, hpe⟩ := List.mem_map.mp hpmem
      have hlab : p.1 = cl.label := by rw [← hpe]
      constructor
      · rw [hfold, hp2]
        unfold specClassify
        rw [if_neg ht, if_neg hM, hp1]
      · intro _
        constructor
        · intro hdoc
          exfalso
          rw [hfold, hp2, hlab] at hdoc
          exact (classifications_facts cl hcl).2.2 hdoc
        · intro hall
          exfalso
          apply hM
          rcases foldr_max_mem_or_seed ((scoredLabels t).map Prod.snd) 0 with h | h
          · exact h
          · obtain ⟨q, hq, hqe⟩ := List.mem_map.mp h
            obtain ⟨cl', hcl', hce⟩ := List.mem_map.mp hq
            have hz : scoreOf t cl' = 0 := by
              unfold scoreOf
              rw [hall cl' hcl']
              simp
            have h2 : maxScore t = q.2 := hqe.symm
            rw [h2, ← hce]
            simpa using hz

/-- Witness for C6 at a concrete matching text. -/
theorem classify_matches_spec_witness :
    classify_medical_document_enhanced "blood pressure and prescription".toList =
      specClassify "blood pressure and prescription".toList ∧
    (classify_medical_document_enhanced "blood pressure and prescription".toList =
        "document".toList ↔
      ∀ cl ∈ classifications,
        matchCount "blood pressure and prescription".toList cl.kws = 0) :=
  ⟨(classify_matches_spec "blood pressure and prescription".toList).1,
    (classify_matches_spec "blood pressure and prescription".toList).2 (by decide)⟩

/-- Witness for C5 at a concrete tier-1 outcome. -/
theorem chain_lines_invariant_tier12_witness :
    ((extract_text_multi_method
        ⟨.ok [⟨"hello world".toList, []⟩], .error (), .error ()⟩).2 = [1] ∨
      (extract_text_multi_method
        ⟨.ok [⟨"hello world".toList, []⟩], .error (), .error ()⟩).2 = [1, 2]) ∧
    (extract_text_multi_method
        ⟨.ok [⟨"hello world".toList, []⟩], .error (), .error ()⟩).1.linesExtracted =
      (usableLines (extract_text_multi_method
        ⟨.ok [⟨"hello world".toList, []⟩], .error (), .error ()⟩).1.text).length :=
  ⟨Or.inl rfl,
    chain_lines_invariant_tier12
      ⟨.ok [⟨"hello world".toList, []⟩], .error (), .error ()⟩ (Or.inl rfl)⟩

/-- Whitespace collapsing emits only plain spaces as whitespace. -/
theorem collapseAux_ws_eq_space (l : Str) :
    ∀ (b : Bool), ∀ c ∈ collapseAux b l, wsB c = true → c = ' ' := by
  induction l with
  | nil =>
    intro b c hc
    simp [collapseAux] at hc
  | cons a l ih =>
    intro b c hc hw
    cases hb : wsB a with
    | true =>
      cases b with
      | true =>
        simp only [collapseAux, hb, if_true] at hc
        exact ih true c hc hw
      | false =>
        simp only [collapseAux, hb, if_true, if_false] at hc
        rcases List.mem_cons.mp hc with h | h
        · exact h
        · exact ih true c h hw
    | false =>
      simp only [collapseAux, hb] at hc
      rcases List.mem_cons.mp hc with h | h
      · subst h
        rw [hb] at hw
        cases hw
      · exact ih false c h hw

/-- Whitespace collapsing leaves no two adjacent whitespace characters
and, with a pending-whitespace flag, starts with a non-whitespace
character. -/
theorem collapseAux_chain (l : Str) :
    (∀ b, NoWsRun (collapseAux b l)) ∧ HeadNotWs (collapseAux true l) := by
  induction l with
  | nil =>
    constructor
    · intro b
      simp [collapseAux, NoWsRun]
    · intro c cs h
      simp [collapseAux] at h
  | cons a l ih =>
    obtain ⟨ihc, ihh⟩ := ih
    have hcons : ∀ x, wsB x = false ∨ HeadNotWs (collapseAux true l) →
        NoWsRun (x :: collapseAux true l) := by
      intro x hx
      apply List.chain'_cons'.mpr
      refine ⟨?_, ihc true⟩
      intro y hy
      cases hc : collapseAux true l with
      | nil => rw [hc] at hy; cases hy
      | cons d ds =>
        rw [hc] at hy
        simp at hy
        subst hy
        exact Or.inr (ihh d ds hc)
    constructor
    · intro b
      cases hb : wsB a with
      | true =>
        cases b with
        | true =>
          simpa only [collapseAux, hb, if_true] using ihc true
        | false =>
          simp only [collapseAux, hb, if_true, if_false]
          exact hcons ' ' (Or.inr ihh)
      | false =>
        simp only [collapseAux, hb]
        apply List.chain'_cons'.mpr
        refine ⟨fun y _ => Or.inl hb, ihc false⟩
    · cases hb : wsB a with
      | true =>
        intro c cs h
        simp only [collapseAux, hb, if_true] at h
        exact ihh c cs h
      | false =>
        intro c cs h
        simp [collapseAux, hb] at h
        rw [← h.1]
        exact hb

/-- Whitespace collapsing is the identity on text already in collapsed
form. -/
theorem collapseAux_fix (l : Str) :
    (WsOk l → NoWsRun l → collapseAux false l = l) ∧
      (WsOk l → NoWsRun l → HeadNotWs l → collapseAux true l = l) := by
  induction l with
  | nil => exact ⟨fun _ _ => rfl, fun _ _ _ => rfl⟩
  | cons a l ih =>
    have tail_ok : WsOk (a :: l) → WsOk l :=
      fun h c hc hw => h c (List.mem_cons_of_mem a hc) hw
    constructor
    · intro hok hch
      cases hb : wsB a with
      | true =>
        have ha : a = ' ' := hok a (List.mem_cons_self a l) hb
        have hhead : HeadNotWs l := by
          intro c cs hcs
          subst hcs
          rcases (List.chain'_cons.mp hch).1 with h | h
          · rw [hb] at h; cases h
          · exact h
        simp only [collapseAux, hb]
        simp only [if_true, Bool.false_eq_true, if_false]
        rw [ih.2 (tail_ok hok) hch.tail hhead, ha]
      | false =>
        simp [collapseAux, hb]
        exact ih.1 (tail_ok hok) hch.tail
    · intro hok hch hhead
      have hb : wsB a = false := hhead a l rfl
      simp [collapseAux, hb]
      exact ih.1 (tail_ok hok) hch.tail

/-- A character produced by the ligature replacement is the original or
one of `f`, `i`, `l`. -/
theorem replLig_mem (c c' : Char) (h : c' ∈ replLig c) :
    c' = c ∨ (c' = 'f' ∨ c' = 'i' ∨ c' = 'l') := by
  unfold replLig at h
  split_ifs at h <;> simp at h <;> tauto

/-- Ligature replacement preserves the spaces-only-whitespace state. -/
theorem replaceLigs_wsok (l : Str) (h : WsOk l) : WsOk (replaceLigs l) := by
  intro c hc hw
  obtain ⟨a, ha, hca⟩ := List.mem_flatMap.mp hc
  rcases replLig_mem a c hca with h' | h'
  · subst h'
    exact h c ha hw
  · rcases h' with rfl | rfl | rfl <;> simp [wsB] at hw

/-- Ligature replacement leaves no ligature characters behind. -/
theorem replaceLigs_no_lig (l : Str) :
    ∀ c ∈ replaceLigs l, c ≠ 'ﬁ' ∧ c ≠ 'ﬂ' ∧ c ≠ 'ﬀ' := by
  intro c hc
  obtain ⟨a, ha, hca⟩ := List.mem_flatMap.mp hc
  unfold replLig at hca
  split_ifs at hca with h1 h2 h3
  · simp at hca
    rcases hca with rfl | rfl
    all_goals exact ⟨by decide, by decide, by decide⟩
  · simp at hca
    rcases hca with rfl | rfl
    all_goals exact ⟨by decide, by decide, by decide⟩
  · simp at hca
    rcases hca with rfl | rfl
    all_goals exact ⟨by decide, by decide, by decide⟩
  · simp at hca
    subst hca
    exact ⟨h1, h2, h3⟩

/-- Ligature replacement is the identity on ligature-free text. -/
theorem replaceLigs_fix (l : Str)
    (h : ∀ c ∈ l, c ≠ 'ﬁ' ∧ c ≠ 'ﬂ' ∧ c ≠ 'ﬀ') : replaceLigs l = l := by
  induction l with
  | nil => rfl
  | cons a l ih =>
    have ha := h a (List.mem_cons_self a l)
    have hra : replLig a = [a] := by
      unfold replLig
      rw [if_neg ha.1, if_neg ha.2.1, if_neg ha.2.2]
    simp only [replaceLigs, List.flatMap_cons] at *
    rw [hra]
    simp only [List.singleton_append, List.cons.injEq, true_and]
    exact ih (fun c hc => h c (List.mem_cons_of_mem a hc))

/-- Ligature replacement keeps a non-whitespace first character. -/
theorem replaceLigs_head_not_ws (l : Str) (hh : HeadNotWs l) :
    HeadNotWs (replaceLigs l) := by
  intro c cs h
  cases l with
  | nil => simp [replaceLigs] at h
  | cons a l' =>
    have ha : wsB a = false := hh a l' rfl
    simp only [replaceLigs, List.flatMap_cons] at h
    by_cases h1 : a = 'ﬁ'
    · rw [h1] at h
      simp [replLig] at h
      rw [← h.1]
      decide
    · by_cases h2 : a = 'ﬂ'
      · rw [h2] at h
        simp [replLig] at h
        rw [← h.1]
        decide
      · by_cases h3 : a = 'ﬀ'
        · rw [h3] at h
          simp [replLig] at h
          rw [← h.1]
          decide
        · have hra : replLig a = [a] := by
            unfold replLig
            rw [if_neg h1, if_neg h2, if_neg h3]
          rw [hra] at h
          simp at h
          rw [← h.1]
          exact ha

/-- The last character of a replacement block of a non-whitespace
character is not whitespace. -/
theorem replLig_last_not_ws (a : Char) (ha : wsB a = false) :
    ∀ x ∈ (replLig a).getLast?, wsB x = false := by
  intro x hx
  unfold replLig at hx
  split_ifs at hx <;> simp at hx <;> subst hx
  · decide
  · decide
  · decide
  · exact ha

/-- Ligature replacement preserves the no-adjacent-whitespace state. -/
theorem replaceLigs_chain (l : Str) (h : NoWsRun l) : NoWsRun (replaceLigs l) := by
  induction l with
  | nil => simp [replaceLigs, NoWsRun]
  | cons a l ih =>
    have hch := ih h.tail
    show List.Chain' NicePair (replLig a ++ replaceLigs l)
    apply List.chain'_append.mpr
    refine ⟨?_, hch, ?_⟩
    · unfold replLig
      split_ifs
      · exact List.chain'_pair.mpr (Or.inl (by decide))
      · exact List.chain'_pair.mpr (Or.inl (by decide))
      · exact List.chain'_pair.mpr (Or.inl (by decide))
      · exact List.chain'_singleton a
    · intro x hx y hy
      cases hb : wsB a with
      | true =>
        have hra : replLig a = [a] := by
          have ha' : a ≠ 'ﬁ' ∧ a ≠ 'ﬂ' ∧ a ≠ 'ﬀ' := by
            refine ⟨?_, ?_, ?_⟩ <;> intro he <;> rw [he] at hb <;> cases hb
          unfold replLig
          rw [if_neg ha'.1, if_neg ha'.2.1, if_neg ha'.2.2]
        have hhl : HeadNotWs l := by
          intro c cs hcs
          subst hcs
          rcases (List.chain'_cons.mp h).1 with h' | h'
          · rw [hb] at h'; cases h'
          · exact h'
        have hhr := replaceLigs_head_not_ws l hhl
        cases hc : replaceLigs l with
        | nil => rw [hc] at hy; cases hy
        | cons d ds =>
          rw [hc] at hy
          simp at hy
          subst hy
          exact Or.inr (hhr d ds hc)
      | false =>
        exact Or.inl (replLig_last_not_ws a hb x hx)

/-- Membership survives `dropWhile`-removal in reverse: an element of the
result was in the input. -/
theorem mem_of_mem_dropWhile {p : Char → Bool} {l : Str} {c : Char}
    (h : c ∈ l.dropWhile p) : c ∈ l := by
  induction l with
  | nil => exact h
  | cons a l ih =>
    by_cases ha : p a
    · rw [List.dropWhile_cons_of_pos ha] at h
      exact List.mem_cons_of_mem a (ih h)
    · rw [List.dropWhile_cons_of_neg ha] at h
      exact h

/-- An element of the stripped text was in the original text. -/
theorem mem_of_strip {l : Str} {c : Char} (h : c ∈ strip l) : c ∈ l := by
  unfold strip List.rdropWhile at h
  rw [List.mem_reverse] at h
  have h1 := mem_of_mem_dropWhile h
  rw [List.mem_reverse] at h1
  exact mem_of_mem_dropWhile h1

/-- `dropWhile` preserves the no-adjacent-whitespace state. -/
theorem chain'_dropWhile {p : Char → Bool} {l : Str} (h : List.Chain' NicePair l) :
    List.Chain' NicePair (l.dropWhile p) := by
  induction l with
  | nil => exact h
  | cons a l ih =>
    by_cases ha : p a
    · rw [List.dropWhile_cons_of_pos ha]
      exact ih h.tail
    · rw [List.dropWhile_cons_of_neg ha]
      exact h

/-- Reversal preserves the no-adjacent-whitespace state. -/
theorem chain'_nice_reverse {l : Str} (h : List.Chain' NicePair l) :
    List.Chain' NicePair l.reverse := by
  apply List.chain'_reverse.mpr
  exact List.Chain'.imp (fun a b hab => hab.symm) h

/-- Stripping preserves the no-adjacent-whitespace state. -/
theorem strip_chain (l : Str) (h : NoWsRun l) : NoWsRun (strip l) := by
  unfold strip List.rdropWhile
  exact chain'_nice_reverse (chain'_dropWhile (chain'_nice_reverse (chain'_dropWhile h)))

/-- Stripped text starts with a non-whitespace character. -/
theorem strip_headNotWs (l : Str) : HeadNotWs (strip l) := by
  intro c cs hs
  obtain ⟨u, hu⟩ := List.dropWhile_suffix (l := (l.dropWhile wsB).reverse) wsB
  have hd : l.dropWhile wsB = c :: (cs ++ u.reverse) := by
    have h1 : l.dropWhile wsB = ((l.dropWhile wsB).reverse).reverse := by
      rw [List.reverse_reverse]
    rw [h1, ← hu, List.reverse_append]
    unfold strip List.rdropWhile at hs
    rw [hs]
    simp
  have h2 := List.head?_dropWhile_not wsB l
  rw [show (l.dropWhile wsB).head? = some c from by rw [hd]; rfl] at h2
  exact h2

/-- Stripping is idempotent. -/
theorem strip_strip (l : Str) : strip (strip l) = strip l := by
  cases hs : strip l with
  | nil => rfl
  | cons c cs =>
    rw [← hs]
    have hc : wsB c = false := strip_headNotWs l c cs hs
    have h1 : List.dropWhile wsB (strip l) = strip l := by
      rw [hs]
      exact List.dropWhile_cons_of_neg (by simp [hc])
    calc strip (strip l) = List.rdropWhile wsB (List.dropWhile wsB (strip l)) := rfl
      _ = List.rdropWhile wsB (strip l) := by rw [h1]
      _ = List.rdropWhile wsB (List.rdropWhile wsB (l.dropWhile wsB)) := rfl
      _ = List.rdropWhile wsB (l.dropWhile wsB) := List.rdropWhile_idempotent wsB _
      _ = strip l := rfl

/-- In collapsed text every character differs from the newline. -/
theorem wsok_no_nl (l : Str) (h : WsOk l) : ∀ c ∈ l, c ≠ '\n' := by
  intro c hc heq
  subst heq
  have := h _ hc (by decide)
  exact absurd this (by decide)

/-- Splitting on an absent separator yields the whole text as the single
part. -/
theorem splitOnChar_single (sep : Char) (l : Str) (h : ∀ c ∈ l, c ≠ sep) :
    splitOnChar sep l = [l] := by
  induction l with
  | nil => rfl
  | cons c cs ih =>
    have hc : c ≠ sep := h c (List.mem_cons_self c cs)
    have ihe := ih (fun d hd => h d (List.mem_cons_of_mem c hd))
    simp [splitOnChar, hc, ihe]

/-- A kept line is non-empty (the length-3 test fails on `[]`). -/
theorem keepLine_ne_nil {l : Str} (h : keepLine l = true) : l ≠ [] := by
  intro he
  rw [he] at h
  exact absurd h (by decide)

/-- Because whitespace collapsing removes every newline, `clean_pdf_text`
on non-empty text reduces to strip-then-filter of the single collapsed,
ligature-fixed line. -/
theorem clean_eq_core (t : Str) (h : t ≠ []) :
    clean_pdf_text t =
      (if keepLine (strip (replaceLigs (collapseWs t)))
        then strip (replaceLigs (collapseWs t)) else []) := by
  unfold clean_pdf_text
  rw [if_neg h]
  have hok : WsOk (replaceLigs (collapseWs t)) :=
    replaceLigs_wsok _ (fun c hc hw => collapseAux_ws_eq_space t false c hc hw)
  rw [splitOnChar_single '\n' _ (wsok_no_nl _ hok)]
  by_cases hk : keepLine (strip (replaceLigs (collapseWs t)))
  · simp [List.filter_cons, hk, joinWith]
  · simp [List.filter_cons, hk, joinWith]

/-- A successful initial-segment test yields an append decomposition. -/
theorem startsWithB_exists {n l : Str} (h : startsWithB n l = true) :
    ∃ r, l = n ++ r := by
  induction n generalizing l with
  | nil => exact ⟨l, rfl⟩
  | cons a as ih =>
    cases l with
    | nil => simp [startsWithB] at h
    | cons b bs =>
      unfold startsWithB at h
      split_ifs at h with hab
      subst hab
      obtain ⟨r, hr⟩ := ih h
      exact ⟨r, by rw [hr]; rfl⟩

/-- A hit of the substring scanner marks an occurrence at the reported
offset. -/
theorem findSubAux_some {needle : Str} : ∀ (hay : Str) (i j : ℕ),
    findSubAux hay needle i = some j →
    i ≤ j ∧ startsWithB needle (hay.drop (j - i)) = true := by
  intro hay
  induction hay with
  | nil =>
    intro i j h
    unfold findSubAux at h
    split_ifs at h with hP
    cases h
    exact ⟨le_refl _, by simpa using hP⟩
  | cons a hs ih =>
    intro i j h
    unfold findSubAux at h
    split_ifs at h with hP
    · cases h
      simpa using hP
    · obtain ⟨h1, h2⟩ := ih (i + 1) j h
      refine ⟨by omega, ?_⟩
      obtain ⟨k, hk⟩ : ∃ k, j - i = k + 1 := ⟨j - i - 1, by omega⟩
      rw [hk, List.drop_succ_cons]
      have hk2 : k = j - (i + 1) := by omega
      rw [hk2]
      exact h2

/-- A `findSub` hit marks an occurrence at the reported position. -/
theorem findSub_some {hay needle : Str} {p : ℕ} (h : findSub hay needle = some p) :
    startsWithB needle (hay.drop p) = true := by
  have := findSubAux_some hay 0 p h
  simpa using this.2

/-- Lowercasing fixes whitespace characters. -/
theorem toLower_ws_fix (c : Char) (h : wsB c = true) : c.toLower = c := by
  simp only [wsB, Char.isWhitespace, Bool.or_eq_true, decide_eq_true_eq] at h
  rcases h with ((rfl | rfl) | rfl) | rfl <;> decide

/-- A non-satisfying member of a list survives `dropWhile`. -/
theorem mem_dropWhile_not {p : Char → Bool} {l : Str} {c : Char}
    (hc : c ∈ l) (hp : p c = false) : c ∈ l.dropWhile p := by
  induction l with
  | nil => cases hc
  | cons a l ih =>
    by_cases ha : p a
    · rw [List.dropWhile_cons_of_pos ha]
      rcases List.mem_cons.mp hc with h | h
      · subst h
        rw [hp] at ha
        cases ha
      · exact ih h
    · rw [List.dropWhile_cons_of_neg ha]
      exact hc

/-- A text containing a non-whitespace character does not strip to
nothing. -/
theorem strip_ne_nil_of_mem {l : Str} {c : Char} (hc : c ∈ l)
    (hw : wsB c = false) : strip l ≠ [] := by
  intro h
  unfold strip at h
  rw [List.rdropWhile_eq_nil_iff] at h
  exact absurd (h c (mem_dropWhile_not hc hw)) (by simp [hw])

/-- The context extractor is exactly the stripped raw window. -/
theorem extract_keyword_context_eq (t kw : Str) :
    extract_keyword_context t kw = strip (rawWindow t kw) := by
  unfold extract_keyword_context rawWindow
  cases h : findSub (lowerL t) (lowerL kw) with
  | none => simp only [h]; rfl
  | some pos => simp only [h]

/-- When the keyword occurs, the context snippet is non-empty: the
window always contains the keyword's first character, which is not
whitespace. -/
theorem extract_keyword_context_ne_nil (t kw : Str) (hne : kw ≠ [])
    (hk0 : wsB kw.headI.toLower = false)
    (hfound : hasSub (lowerL t) (lowerL kw) = true) :
    extract_keyword_context t kw ≠ [] := by
  unfold hasSub at hfound
  obtain ⟨pos, hpos⟩ := Option.isSome_iff_exists.mp hfound
  unfold extract_keyword_context
  rw [hpos]
  obtain ⟨r, hr⟩ := startsWithB_exists (findSub_some hpos)
  obtain ⟨k0, ks, rfl⟩ : ∃ k0 ks, kw = k0 :: ks := by
    cases kw with
    | nil => exact absurd rfl hne
    | cons a b => exact ⟨a, b, rfl⟩
  have hlen : t.length - pos = ks.length + 1 + r.length := by
    have h2 := congrArg List.length hr
    simp [lowerL] at h2
    omega
  have hple : pos + (k0 :: ks).length ≤ t.length := by
    simp only [List.length_cons] at hlen ⊢
    omega
  have hmapdrop : List.map Char.toLower (t.drop pos) = lowerL (k0 :: ks) ++ r := by
    rw [List.map_drop]
    exact hr
  obtain ⟨b, c, hbc, hb, _⟩ := List.map_eq_append_iff.mp hmapdrop
  obtain ⟨b0, bs, rfl⟩ : ∃ b0 bs, b = b0 :: bs := by
    cases b with
    | nil => simp [lowerL] at hb
    | cons x y => exact ⟨x, y, rfl⟩
  have hb0 : b0.toLower = k0.toLower := by
    simp only [lowerL, List.map_cons, List.map_cons] at hb
    exact (List.cons.injEq _ _ _ _ ▸ hb).1
  have hb0w : wsB b0 = false := by
    cases hwb : wsB b0 with
    | false => rfl
    | true =>
      have h1 : b0.toLower = b0 := toLower_ws_fix b0 hwb
      rw [h1] at hb0
      rw [hb0] at hwb
      simp only [List.headI] at hk0
      rw [hk0] at hwb
      cases hwb
  -- show b0 is a member of the raw window
  have hstart : pos - 30 ≤ pos := Nat.sub_le pos 30
  have hsplit : t.drop (pos - 30) =
      (t.drop (pos - 30)).take (pos - (pos - 30)) ++ t.drop pos := by
    have h1 : ((t.drop (pos - 30)).drop (pos - (pos - 30))) = t.drop pos := by
      rw [List.drop_drop]
      congr 1
      omega
    conv_lhs => rw [← List.take_append_drop (pos - (pos - 30)) (t.drop (pos - 30))]
    rw [h1]
  have hwin : b0 ∈ (t.drop (pos - 30)).take
      (min t.length (pos + (k0 :: ks).length + 30) - (pos - 30)) := by
    have hpos_lt : pos < t.length := by
      simp only [List.length_cons] at hple
      omega
    have hAlen : ((t.drop (pos - 30)).take (pos - (pos - 30))).length = pos - (pos - 30) := by
      rw [List.length_take, List.length_drop]
      omega
    have hm : pos - (pos - 30) + 1 ≤ min t.length (pos + (k0 :: ks).length + 30) - (pos - 30) := by
      simp only [List.length_cons] at hple ⊢
      omega
    rw [hsplit, List.take_append_eq_append_take]
    apply List.mem_append.mpr
    right
    rw [hAlen]
    have hdrop : t.drop pos = b0 :: (bs ++ c) := by
      rw [hbc]
      rfl
    rw [hdrop]
    obtain ⟨k, hk⟩ : ∃ k, min t.length (pos + (k0 :: ks).length + 30) - (pos - 30) -
        (pos - (pos - 30)) = k + 1 :=
      ⟨min t.length (pos + (k0 :: ks).length + 30) - (pos - 30) - (pos - (pos - 30)) - 1,
        by simp only [List.length_cons] at hm ⊢; omega⟩
    rw [hk, List.take_succ_cons]
    exact List.mem_cons_self _ _
  exact strip_ne_nil_of_mem hwin hb0w

/-- Every produced entity match carries the stripped raw window of its own
keyword as context, and its keyword does occur in the lower-cased text. -/
theorem extract_context_spec (t : Str) :
    ∀ m ∈ extract_medical_keywords t,
      m.context = strip (rawWindow t m.keyword) ∧
        hasSub (lowerL t) m.keyword = true := by
  intro m hm
  unfold extract_medical_keywords at hm
  split_ifs at hm with ht
  · cases hm
  · obtain ⟨ck, hck, hm2⟩ := List.mem_flatMap.mp hm
    obtain ⟨k, hk, hme⟩ := List.mem_map.mp hm2
    subst hme
    exact ⟨extract_keyword_context_eq t k, (List.mem_filter.mp hk).2⟩

/-- A taxonomy block of the wrong category contributes nothing to the
`(category, keyword)` filter. -/
theorem block_len_ne (t cat kw c : Str) (ks : List Str) (h : c ≠ cat) :
    (((ks.filter (fun k => hasSub (lowerL t) k)).map
        (fun k => (⟨c, k, extract_keyword_context t k⟩ : EntityMatch))).filter
      (fun m => decide (m.category = cat) && decide (m.keyword = kw))).length = 0 := by
  have hd : (decide (c = cat)) = false := decide_eq_false h
  induction ks with
  | nil => rfl
  | cons a ks ih =>
    cases hp : hasSub (lowerL t) a <;>
      simp [List.filter_cons, hp, hd, ih]

/-- A taxonomy block of the right category contributes one filtered match
per occurrence of the keyword in its list, when the keyword is present in
the text. -/
theorem block_len_eq (t kw c : Str) (ks : List Str) :
    (((ks.filter (fun k => hasSub (lowerL t) k)).map
        (fun k => (⟨c, k, extract_keyword_context t k⟩ : EntityMatch))).filter
      (fun m => decide (m.category = c) && decide (m.keyword = kw))).length =
      if hasSub (lowerL t) kw = true then ks.countP (fun k => decide (k = kw)) else 0 := by
  induction ks with
  | nil => simp
  | cons a ks ih =>
    by_cases ha : a = kw
    · subst ha
      cases hp : hasSub (lowerL t) a with
      | true =>
        simp [List.filter_cons, hp, List.countP_cons, ih]
      | false =>
        simp [List.filter_cons, hp, List.countP_cons, ih]
    · have hd : (decide (a = kw)) = false := decide_eq_false ha
      cases hp : hasSub (lowerL t) a <;>
        simp [List.filter_cons, hp, hd, List.countP_cons, ha, ih]

/-- In a duplicate-free list, exactly one element equals a given member. -/
theorem countP_eq_one_of_nodup_mem {kw : Str} {ks : List Str}
    (hnd : ks.Nodup) (hkw : kw ∈ ks) : ks.countP (fun k => decide (k = kw)) = 1 := by
  induction ks with
  | nil => cases hkw
  | cons a ks ih =>
    rw [List.nodup_cons] at hnd
    rw [List.countP_cons]
    rcases List.mem_cons.mp hkw with heq | hmem
    · subst heq
      have hz : ks.countP (fun k => decide (k = kw)) = 0 := by
        rw [List.countP_eq_zero]
        intro k hk hdk
        rw [decide_eq_true_eq] at hdk
        exact hnd.1 (hdk ▸ hk)
      simp [hz]
    · have hne : (decide (a = kw)) = false := by
        apply decide_eq_false
        intro he
        exact hnd.1 (he ▸ hmem)
      simp [hne, ih hnd.2 hmem]

/-- A run of wrong-category taxonomy blocks contributes nothing. -/
theorem flatMap_blocks_len_zero (t cat kw : Str) (mk : List (Str × List Str))
    (h : ∀ ck ∈ mk, ck.1 ≠ cat) :
    ((mk.flatMap (fun ck => (ck.2.filter (fun k => hasSub (lowerL t) k)).map
        (fun k => (⟨ck.1, k, extract_keyword_context t k⟩ : EntityMatch)))).filter
      (fun m => decide (m.category = cat) && decide (m.keyword = kw))).length = 0 := by
  induction mk with
  | nil => rfl
  | cons ck mk ih =>
    rw [List.flatMap_cons, List.filter_append, List.length_append,
      block_len_ne t cat kw ck.1 ck.2 (h ck (List.mem_cons_self ck mk)),
      ih (fun ck' hck' => h ck' (List.mem_cons_of_mem ck hck'))]

/-- Over a taxonomy with distinct category names and duplicate-free
keyword lists, the `(category, keyword)` filter catches exactly one match
when the keyword is present and none when it is absent. -/
theorem extract_count_aux (t cat kw : Str) (kws : List Str) :
    ∀ (mk : List (Str × List Str)), (mk.map Prod.fst).Nodup →
    (∀ ck ∈ mk, ck.2.Nodup) → (cat, kws) ∈ mk → kw ∈ kws →
    ((mk.flatMap (fun ck => (ck.2.filter (fun k => hasSub (lowerL t) k)).map
        (fun k => (⟨ck.1, k, extract_keyword_context t k⟩ : EntityMatch)))).filter
      (fun m => decide (m.category = cat) && decide (m.keyword = kw))).length =
      if hasSub (lowerL t) kw = true then 1 else 0 := by
  intro mk
  induction mk with
  | nil =>
    intro _ _ hmem _
    cases hmem
  | cons ck mk ih =>
    intro hcats hnodups hmem hkw
    rw [List.map_cons, List.nodup_cons] at hcats
    rw [List.flatMap_cons, List.filter_append, List.length_append]
    rcases List.mem_cons.mp hmem with heq | hmem'
    · have hck : ck = (cat, kws) := heq.symm
      subst hck
      have hcount : kws.countP (fun k => decide (k = kw)) = 1 :=
        countP_eq_one_of_nodup_mem (hnodups (cat, kws) (List.mem_cons_self _ _)) hkw
      have hzero : ∀ ck' ∈ mk, ck'.1 ≠ cat := by
        intro ck' hck' he
        apply hcats.1
        rw [← he]
        exact List.mem_map.mpr ⟨ck', hck', rfl⟩
      rw [flatMap_blocks_len_zero t cat kw mk hzero, block_len_eq t kw cat kws, hcount]
      omega
    · have hne : ck.1 ≠ cat := by
        intro he
        apply hcats.1
        rw [he]
        exact List.mem_map.mpr ⟨(cat, kws), hmem', rfl⟩
      rw [block_len_ne t cat kw ck.1 ck.2 hne,
        ih hcats.2 (fun ck' hck' => hnodups ck' (List.mem_cons_of_mem ck hck')) hmem' hkw,
        Nat.zero_add]

/-- The concrete taxonomy has distinct category names and duplicate-free
keyword lists. -/
theorem medical_keywords_nodup :
    ((medical_keywords.map Prod.fst).Nodup ∧ ∀ ck ∈ medical_keywords, ck.2.Nodup) := by
  decide

/-- The concrete taxonomy's keywords are non-empty, already lower-case,
and start with a non-whitespace character. -/
theorem medical_keywords_kw_facts :
    ∀ ck ∈ medical_keywords, ∀ k ∈ ck.2,
      k ≠ [] ∧ lowerL k = k ∧ wsB k.headI.toLower = false := by
  decide

/-- The `(category, keyword)` filter over the whole extractor output. -/
theorem extract_count (t cat kw : Str) (kws : List Str)
    (hmem : (cat, kws) ∈ medical_keywords) (hkw : kw ∈ kws) (ht : t ≠ []) :
    ((extract_medical_keywords t).filter
        (fun m => decide (m.category = cat) && decide (m.keyword = kw))).length =
      if hasSub (lowerL t) kw = true then 1 else 0 := by
  unfold extract_medical_keywords
  rw [if_neg ht]
  exact extract_count_aux t cat kw kws medical_keywords
    medical_keywords_nodup.1 medical_keywords_nodup.2 hmem hkw

/-- The substring test on an empty haystack fails for non-empty needles. -/
theorem hasSub_nil {k : Str} (h : k ≠ []) : hasSub [] k = false := by
  cases k with
  | nil => exact absurd rfl h
  | cons a ks => rfl

/-- C7 (amended): an occurring keyword yields exactly one `EntityMatch`
per category listing it; every match's context snippet is the
whitespace-stripped ±30-character window around the keyword's first
occurrence, and it is non-empty; an absent keyword yields no match. -/
theorem entity_extraction_matches (t kw cat : Str) (kws : List Str)
    (hmem : (cat, kws) ∈ medical_keywords) (hkw : kw ∈ kws) :
    (hasSub (lowerL t) kw = true →
      ((extract_medical_keywords t).filter
          (fun m => decide (m.category = cat) && decide (m.keyword = kw))).length = 1 ∧
      ∀ m ∈ extract_medical_keywords t, m.keyword = kw →
        m.context = strip (rawWindow t kw) ∧ m.context ≠ []) ∧
    (hasSub (lowerL t) kw = false →
      ((extract_medical_keywords t).filter
          (fun m => decide (m.category = cat) && decide (m.keyword = kw))).length = 0) := by
  have hfacts := medical_keywords_kw_facts (cat, kws) hmem kw hkw
  by_cases ht : t = []
  · subst ht
    constructor
    · intro hpres
      rw [show lowerL ([] : Str) = [] from rfl, hasSub_nil hfacts.1] at hpres
      cases hpres
    · intro _
      rfl
  · constructor
    · intro hpres
      refine ⟨?_, ?_⟩
      · rw [extract_count t cat kw kws hmem hkw ht, if_pos hpres]
      · intro m hm hkey
        obtain ⟨hctx, hsub⟩ := extract_context_spec t m hm
        rw [hkey] at hctx hsub
        have hne2 : extract_keyword_context t kw ≠ [] :=
          extract_keyword_context_ne_nil t kw hfacts.1 hfacts.2.2
            (by rw [hfacts.2.1]; exact hsub)
        refine ⟨hctx, ?_⟩
        rw [hctx, ← extract_keyword_context_eq]
        exact hne2
    · intro habs
      rw [extract_count t cat kw kws hmem hkw ht, if_neg (by simp [habs])]

/-- Witness for C7 at a concrete text containing `blood pressure`. -/
theorem entity_extraction_matches_witness :
    ((extract_medical_keywords "blood pressure check".toList).filter
        (fun m => decide (m.category = "tests".toList) &&
          decide (m.keyword = "blood pressure".toList))).length = 1 ∧
    ∀ m ∈ extract_medical_keywords "blood pressure check".toList,
      m.keyword = "blood pressure".toList →
      m.context = strip (rawWindow "blood pressure check".toList
        "blood pressure".toList) ∧ m.context ≠ [] :=
  (entity_extraction_matches "blood pressure check".toList "blood pressure".toList
    "tests".toList
    (["blood pressure", "cholesterol", "glucose", "hemoglobin", "x-ray",
      "mri"].map String.toList)
    (by decide) (by decide)).1 (by decide)

/-- C7 counterexample: with 30 spaces before the keyword, the stored
context snippet is the stripped window `'pain'`, not the raw ±30-character
window (which is the whole whitespace-padded text). -/
theorem context_not_raw_window :
    extract_medical_keywords (List.replicate 30 ' ' ++ "pain".toList) =
      [⟨"symptoms".toList, "pain".toList, "pain".toList⟩] ∧
    rawWindow (List.replicate 30 ' ' ++ "pain".toList) "pain".toList =
      List.replicate 30 ' ' ++ "pain".toList ∧
    "pain".toList ≠ List.replicate 30 ' ' ++ "pain".toList := by
  refine ⟨by decide, by decide, by decide⟩

/-- C4: the text normalizer `clean_pdf_text` is idempotent. -/
theorem clean_pdf_text_idempotent (t : Str) :
    clean_pdf_text (clean_pdf_text t) = clean_pdf_text t := by
  by_cases h : t = []
  · subst h
    rfl
  · rw [clean_eq_core t h]
    by_cases hk : keepLine (strip (replaceLigs (collapseWs t)))
    · rw [if_pos hk]
      have hsne : strip (replaceLigs (collapseWs t)) ≠ [] := keepLine_ne_nil hk
      rw [clean_eq_core _ hsne]
      have hok_c : WsOk (collapseWs t) :=
        fun c hc hw => collapseAux_ws_eq_space t false c hc hw
      have hok_u : WsOk (replaceLigs (collapseWs t)) := replaceLigs_wsok _ hok_c
      have hok_s : WsOk (strip (replaceLigs (collapseWs t))) :=
        fun c hc hw => hok_u c (mem_of_strip hc) hw
      have hch_s : NoWsRun (strip (replaceLigs (collapseWs t))) :=
        strip_chain _ (replaceLigs_chain _ ((collapseAux_chain t).1 false))
      have hcoll : collapseWs (strip (replaceLigs (collapseWs t))) =
          strip (replaceLigs (collapseWs t)) := (collapseAux_fix _).1 hok_s hch_s
      have hrepl : replaceLigs (strip (replaceLigs (collapseWs t))) =
          strip (replaceLigs (collapseWs t)) :=
        replaceLigs_fix _ (fun c hc => replaceLigs_no_lig _ c (mem_of_strip hc))
      rw [hcoll, hrepl, strip_strip, if_pos hk]
    · rw [if_neg hk]
      rfl

end MedPal
